import Mathlib

/-!
# A verification development for the NodeSage indexing/retrieval core

This file gives a shallow embedding, in Lean, of the chunking, incremental
training, ignore-rule parsing and retrieval-merging logic of the NodeSage
code base (`src/chunker.ts`, `src/languages.ts`, the `train` pipeline,
`src/store.ts`, `src/retriever.ts`), together with theorems that settle the
testable properties stated in the natural-language specification.

Modelling conventions:
* machine numbers are `Nat`/`Int`/`ℚ` (mtimes are `Int`, similarity scores ℚ);
* the per-language regular expressions (`getBoundaryPattern`,
  `getImportPattern`) are abstracted as `String → Bool` predicates, since the
  properties under study are parametric in them; the one inline regular
  expression of `classifyChunk` (the class-declaration heuristic) is embedded
  concretely;
* file-system reads are modelled by explicit environment functions
  (`contentOf : String → Option String`, `none` = read failure), and the
  vector-index/embedding collaborators by a query function parameter.
-/

namespace NodeSage

/-! ## JavaScript string helpers

`String.prototype.trim` (restricted to ASCII whitespace) and friends. -/

/-- ASCII whitespace, the fragment of JS `\s` relevant to source code. -/
def isJsWhitespace (c : Char) : Bool :=
  c = ' ' || c = '\t' || c = '\n' || c = '\r' || c = Char.ofNat 11 || c = Char.ofNat 12

/-- JS `s.trim()`. -/
def jsTrim (s : String) : String :=
  String.mk (((s.toList.dropWhile isJsWhitespace).reverse.dropWhile isJsWhitespace).reverse)

/-- Splits a character list at every occurrence of `sep` (the JS
`String.prototype.split` with a single-character separator; an empty input
yields `[""]`, like in JS). Worker with an accumulator for the current piece. -/
def splitOnCharAux (sep : Char) : List Char → List Char → List (List Char)
  | [], acc => [acc.reverse]
  | x :: xs, acc =>
    if x = sep then acc.reverse :: splitOnCharAux sep xs []
    else splitOnCharAux sep xs (x :: acc)

/-- JS `s.split(sep)` for a one-character separator. -/
def splitOnChar (sep : Char) (cs : List Char) : List (List Char) :=
  splitOnCharAux sep cs []

/-! ## Chunker (`src/chunker.ts`) -/

def MIN_CHUNK_LINES : Nat := 5
def TARGET_CHUNK_LINES : Nat := 40
def MAX_CHUNK_LINES : Nat := 80
def OVERLAP_LINES : Nat := 5

/-- `CodeChunk.chunkKind` (`src/types.ts`). `cls`/`fn` stand for the string
tags `"class"`/`"function"`. -/
inductive ChunkKind where
  | imports
  | cls
  | fn
  | block
  | general
deriving DecidableEq, Repr

/-- The `CodeChunk` record of `src/types.ts`. -/
structure CodeChunk where
  filePath : String
  language : String
  startLine : Nat
  endLine : Nat
  content : String
  chunkKind : ChunkKind
deriving DecidableEq, Repr

/-- Number of lines a chunk spans (`endLine` and `startLine` are 1-based and
inclusive). -/
def chunkLen (c : CodeChunk) : Nat := c.endLine + 1 - c.startLine

/-- A placeholder chunk, used only as the default of list lookups in
concrete instantiations. -/
def emptyChunk : CodeChunk :=
  { filePath := "", language := "", startLine := 1, endLine := 1, content := "",
    chunkKind := .general }

/-- `lines.find((l) => l.trim().length > 0) ?? ""` in `classifyChunk`. -/
def firstNonBlank (lines : List String) : String :=
  (lines.find? (fun l => decide (0 < (jsTrim l).length))).getD ""

/-- Strips the literal `kw` from the front of `cs`, returning the rest. -/
def stripLit : List Char → List Char → Option (List Char)
  | [], cs => some cs
  | _ :: _, [] => none
  | p :: ps, c :: cs => if c = p then stripLit ps cs else none

/-- Matches the regex fragment `kw\s` at the front of `cs`. -/
def litThenWs (kw : List Char) (cs : List Char) : Bool :=
  match stripLit kw cs with
  | some (c :: _) => isJsWhitespace c
  | _ => false

/-- Matches the regex fragment `w1\s+w2\s` at the front of `cs`.  The `\s+`
is one-or-more whitespace; as `w2` starts with a non-whitespace letter,
consuming all whitespace is equivalent to the backtracking regex semantics. -/
def litWsLit (w1 w2 : List Char) (cs : List Char) : Bool :=
  match stripLit w1 cs with
  | some (c :: rest) =>
    isJsWhitespace c && litThenWs w2 ((c :: rest).dropWhile isJsWhitespace)
  | _ => false

/-- The inline class-declaration heuristic of `classifyChunk`:
`/^\s*(class\s|abstract\s+class\s|data\s+class\s)/`.  The leading `\s*` is
equivalent to dropping all leading whitespace because each alternative starts
with a letter. -/
def classHeuristic (s : String) : Bool :=
  let cs := s.toList.dropWhile isJsWhitespace
  litThenWs ['c', 'l', 'a', 's', 's'] cs
    || litWsLit ['a', 'b', 's', 't', 'r', 'a', 'c', 't'] ['c', 'l', 'a', 's', 's'] cs
    || litWsLit ['d', 'a', 't', 'a'] ['c', 'l', 'a', 's', 's'] cs

/-- `classifyChunk` (`src/chunker.ts` lines 65–79), parametric in the
language's import and boundary patterns. -/
def classifyChunk (importP boundaryP : String → Bool) (lines : List String) : ChunkKind :=
  let firstLine := firstNonBlank lines
  if importP firstLine then .imports
  else if classHeuristic firstLine then .cls
  else if boundaryP firstLine then .fn
  else .general

/-- The forward boundary scan of `chunkFile` (lines 109–119): the first index
`i ∈ [chunkStart+TARGET, min(chunkStart+MAX, N))` whose line matches the
boundary pattern.  (`lines.getD i ""` is safe: the loop bound keeps `i`
within range.) -/
def findBoundary (boundaryP : String → Bool) (lines : List String) (chunkStart : Nat) :
    Option Nat :=
  (List.range' (chunkStart + TARGET_CHUNK_LINES)
      (min (chunkStart + MAX_CHUNK_LINES) lines.length - (chunkStart + TARGET_CHUNK_LINES))).find?
    (fun i => boundaryP (lines.getD i ""))

/-- The forced-split-at-blank-line fallback of `chunkFile` (lines 125–130): a
downward scan from `chunkStart+MAX-1` to `chunkStart+TARGET` for a blank line,
yielding `i+1`, or `defaultEnd` when none is blank.  (The JS code indexes
`lines[i]` without an upper bound here; we read out-of-range lines as `""`.
The whole branch is proved unreachable below, so this choice is irrelevant.) -/
def blankSplitEnd (lines : List String) (chunkStart defaultEnd : Nat) : Nat :=
  match (List.range' (chunkStart + TARGET_CHUNK_LINES)
      (MAX_CHUNK_LINES - TARGET_CHUNK_LINES)).reverse.find?
      (fun i => jsTrim (lines.getD i "") = "") with
  | some i => i + 1
  | none => defaultEnd

/-- The per-iteration computation of `chunkEnd` in `chunkFile`
(lines 104–132): start from `min(chunkStart + TARGET, N)`; if more content
remains, prefer the first boundary line in the search window, falling back to
a forced blank-line split when `chunkEnd - chunkStart ≥ MAX`.  The `Bool`
records whether that fallback branch was entered (instrumentation only; it is
proved to be always `false`).  `bestSplit > 0` in the source is equivalent to
the scan finding an index, since any found index is `≥ chunkStart + TARGET`. -/
def chunkStep (boundaryP : String → Bool) (lines : List String) (chunkStart : Nat) :
    Nat × Bool :=
  if min (chunkStart + TARGET_CHUNK_LINES) lines.length < lines.length then
    match findBoundary boundaryP lines chunkStart with
    | some i => (i, false)
    | none =>
      if MAX_CHUNK_LINES ≤ min (chunkStart + TARGET_CHUNK_LINES) lines.length - chunkStart then
        (blankSplitEnd lines chunkStart (min (chunkStart + TARGET_CHUNK_LINES) lines.length),
          true)
      else (min (chunkStart + TARGET_CHUNK_LINES) lines.length, false)
  else (min (chunkStart + TARGET_CHUNK_LINES) lines.length, false)

/-- The `while (chunkStart < lines.length)` loop of `chunkFile`
(lines 103–151).  `fuel` drives the recursion; the loop advances `chunkStart`
by at least one on every reachable iteration, so `lines.length + 1` steps
always suffice (the top-level entry below supplies that much).  The `Bool`
component accumulates the fallback flags of the steps taken. -/
def chunkLoop (boundaryP importP : String → Bool) (filePath language : String)
    (lines : List String) : Nat → Nat → List CodeChunk → Bool → List CodeChunk × Bool
  | 0, _, acc, fb => (acc, fb)
  | fuel + 1, chunkStart, acc, fb =>
    if chunkStart < lines.length then
      let chunkEnd := (chunkStep boundaryP lines chunkStart).1
      let chunkLines := (lines.drop chunkStart).take (chunkEnd - chunkStart)
      let acc' :=
        if MIN_CHUNK_LINES ≤ chunkLines.length then
          acc ++ [{ filePath := filePath, language := language,
                    startLine := chunkStart + 1, endLine := chunkEnd,
                    content := String.intercalate "\n" chunkLines,
                    chunkKind := classifyChunk importP boundaryP chunkLines }]
        else acc
      let s1 := chunkEnd - OVERLAP_LINES
      let threshold := if 0 < acc'.length then chunkEnd - chunkLines.length else 0
      let s2 := if s1 ≤ threshold then chunkEnd else s1
      chunkLoop boundaryP importP filePath language lines fuel s2 acc'
        (fb || (chunkStep boundaryP lines chunkStart).2)
    else (acc, fb)

/-- `chunkFile` on an already-split line array, also reporting whether the
forced-split fallback fired (`src/chunker.ts` lines 81–154). -/
def chunkFromLinesWithFlag (boundaryP importP : String → Bool) (filePath language : String)
    (lines : List String) : List CodeChunk × Bool :=
  if lines.length ≤ TARGET_CHUNK_LINES then
    if lines.length < MIN_CHUNK_LINES then ([], false)
    else
      ([{ filePath := filePath, language := language, startLine := 1,
          endLine := lines.length,
          content := String.intercalate "\n" lines,
          chunkKind := classifyChunk importP boundaryP lines }], false)
  else
    chunkLoop boundaryP importP filePath language lines (lines.length + 1) 0 [] false

/-- The chunk list produced by `chunkFile` from a line array. -/
def chunkFromLines (boundaryP importP : String → Bool) (filePath language : String)
    (lines : List String) : List CodeChunk :=
  (chunkFromLinesWithFlag boundaryP importP filePath language lines).1

/-- `chunkFile` proper: the source reads the file and does
`content.split("\n")` before chunking. -/
def chunkFile (boundaryP importP : String → Bool) (filePath language : String)
    (content : String) : List CodeChunk :=
  chunkFromLines boundaryP importP filePath language
    ((splitOnChar '\n' content.toList).map String.mk)

/-! ## Ignore-rule handling in `discoverFiles` (`src/chunker.ts` lines 30–53)

The directory branch unions the built-in ignore list
(`getIgnorePatterns()`, `src/languages.ts`) with patterns derived from the
target's own `.gitignore`.  We embed the line processing verbatim and give
the produced glob patterns a segment-level semantics (literal segments plus
the `**` globstar, which is all the produced patterns use on the segment
level). -/

/-- JS `s.startsWith(pre)`, modelled on the character list (Lean's byte-based
`String.startsWith` is extensionally the same on valid strings). -/
def jsStartsWith (s pre : String) : Bool :=
  pre.toList.isPrefixOf s.toList

/-- The pattern constructor of `discoverFiles`:
`l.startsWith("/") ? `**${l}/**` : `**/${l}/**``. -/
def mkIgnorePattern (l : String) : String :=
  if jsStartsWith l "/" then "**" ++ l ++ "/**" else "**/" ++ l ++ "/**"

/-- `.gitignore` processing in `discoverFiles`:
`split("\n").map(trim).filter(l => l && !l.startsWith("#")).map(...)` —
the bare `l` in the filter is JS truthiness, i.e. the line is non-empty. -/
def parseIgnoreLines (content : String) : List String :=
  ((((splitOnChar '\n' content.toList).map String.mk).map jsTrim).filter
      (fun l => !l.toList.isEmpty && !jsStartsWith l "#")).map mkIgnorePattern

/-- The full ignore list handed to `glob`: built-ins plus the parsed rules
(`none` models an unreadable/absent `.gitignore`, silently skipped). -/
def discoverIgnorePatterns (builtIns : List String) (gitignore : Option String) :
    List String :=
  builtIns ++ (match gitignore with
    | some content => parseIgnoreLines content
    | none => [])

/-- Path-segment decomposition of a pattern or path (split at `/`). -/
def segmentsOf (s : String) : List String :=
  (splitOnChar '/' s.toList).map String.mk

/-- Helper for the `**` globstar: try matching the continuation `g` after
skipping zero or more path segments. -/
def gsmStar (g : List String → Bool) : List String → Bool
  | [] => g []
  | s :: st => g (s :: st) || gsmStar g st

/-- Segment-level glob matching: a literal segment consumes one equal path
segment, `**` consumes zero or more path segments. -/
def globSegMatch : List String → List String → Bool
  | [], ss => ss.isEmpty
  | p :: pt, ss =>
    if p == "**" then gsmStar (globSegMatch pt) ss
    else match ss with
      | [] => false
      | s :: st => p == s && globSegMatch pt st

/-- An ignore pattern matches a relative path, segment-wise. -/
def ignoreMatches (pat : String) (path : List String) : Bool :=
  globSegMatch (segmentsOf pat) path

/-! ## Manifest and the `train` pipeline (`trainer.ts`, `src/store.ts`)

`TrainManifest.files` is a JSON object `path ↦ {mtime, chunkCount}`; we model
it as an association list with JS object semantics: assigning to an existing
key overwrites it in place, a new key is appended. -/

structure ManifestEntry where
  mtime : Int
  chunkCount : Nat
deriving DecidableEq, Repr

/-- The `files` map of a `TrainManifest`. -/
abbrev ManifestFiles := List (String × ManifestEntry)

/-- `manifest.files[path]`. -/
def lookupEntry (m : ManifestFiles) (k : String) : Option ManifestEntry :=
  (m.find? (fun p => p.1 == k)).map (fun p => p.2)

/-- JS `obj[k] = v`: overwrite in place if present, append otherwise. -/
def upsertEntry (m : ManifestFiles) (k : String) (v : ManifestEntry) : ManifestFiles :=
  if (m.find? (fun p => p.1 == k)).isSome then
    m.map (fun p => if p.1 == k then (k, v) else p)
  else m ++ [(k, v)]

/-- The ambient effects `train` interacts with: the active language patterns,
file mtimes (`fs.stat`), and file contents (`fs.readFile`; `none` models a
read failure, which `chunkAllFiles` recovers from by skipping the file). -/
structure TrainEnv where
  boundaryP : String → Bool
  importP : String → Bool
  languageOf : String → String
  mtime : String → Int
  contentOf : String → Option String

/-- `chunkAllFiles` (`src/chunker.ts` lines 156–173): chunk each file,
silently skipping files whose read fails. -/
def chunkAllFiles (env : TrainEnv) (files : List String) : List CodeChunk :=
  files.flatMap (fun f =>
    match env.contentOf f with
    | some content => chunkFile env.boundaryP env.importP f (env.languageOf f) content
    | none => [])

/-- The new-or-changed filter of `train` (trainer.ts lines 54–63): a
discovered file is re-processed iff it has no manifest entry or its mtime
differs. -/
def toProcess (env : TrainEnv) (m : ManifestFiles) (files : List String) : List String :=
  files.filter (fun f =>
    match lookupEntry m f with
    | none => true
    | some e => e.mtime != env.mtime f)

/-- The fresh manifest entry written for a processed file
(trainer.ts lines 127–134). -/
def freshEntry (env : TrainEnv) (chunks : List CodeChunk) (f : String) : ManifestEntry :=
  { mtime := env.mtime f
    chunkCount := (chunks.filter (fun c => c.filePath == f)).length }

/-- The observable outcome of one `train` run: which files were selected,
which chunks were produced (these are exactly the items embedded and written
to the index), and the `files` map of the manifest written at the end
(`none`: the run returned early, leaving the persisted manifest untouched). -/
structure TrainResult where
  filesToProcess : List String
  chunks : List CodeChunk
  savedFiles : Option ManifestFiles
deriving Repr

/-- The manifest- and index-relevant behaviour of `train` (trainer.ts).
`manifest` is `loadManifest()` gated by `initialized && !force` (a `none`
manifest means a full run over all discovered files, folding fresh entries
into an empty map; a `some` manifest means an incremental run, and a run
with no new/changed files returns before embedding or saving anything). -/
def train (env : TrainEnv) (manifest : Option ManifestFiles) (files : List String) :
    TrainResult :=
  match manifest with
  | some m =>
    let selected := toProcess env m files
    if selected.isEmpty then
      { filesToProcess := [], chunks := [], savedFiles := none }
    else
      let chunks := chunkAllFiles env selected
      { filesToProcess := selected
        chunks := chunks
        savedFiles :=
          some (selected.foldl (fun acc f => upsertEntry acc f (freshEntry env chunks f)) m) }
  | none =>
    let chunks := chunkAllFiles env files
    { filesToProcess := files
      chunks := chunks
      savedFiles :=
        some (files.foldl (fun acc f => upsertEntry acc f (freshEntry env chunks f)) []) }

/-- The `files` map as the specification's words describe it (§4.4): "the
union of all `unchanged` entries copied verbatim, plus a fresh
`{mtime, chunkCount}` entry per processed file", where `unchanged` and
`toProcess` partition the *discovered* files.  Stated for comparison with the
map `train` actually writes. -/
def specUnionManifest (env : TrainEnv) (m : ManifestFiles) (files : List String)
    (chunks : List CodeChunk) : ManifestFiles :=
  (files.filter (fun f =>
      match lookupEntry m f with
      | none => false
      | some e => e.mtime == env.mtime f)).filterMap
    (fun f => (lookupEntry m f).map (fun e => (f, e)))
  ++ (toProcess env m files).map (fun f => (f, freshEntry env chunks f))

/-! ## Retriever (`src/retriever.ts`)

`retrieveContext` with `type = "both"` issues a `topK` query against the
`code` partition and a `⌈topK/2⌉` query against the `knowledge` partition,
concatenates, sorts by descending score and truncates.  The vector store is
abstracted as a query function from a requested `k` and a partition to a
result list. -/

inductive Partition where
  | code
  | knowledge
deriving DecidableEq, Repr

/-- A `RetrievedContext` with its metadata fields flattened (`score` is the
index similarity score; `filePath`/`startLine`/`endLine` come from the stored
`ChunkMetadata`). -/
structure RetrievedContext where
  text : String
  filePath : String
  startLine : Nat
  endLine : Nat
  score : ℚ
deriving DecidableEq, Repr

/-- The comparator `(a, b) => b.score - a.score`: descending by score. -/
def scoreDesc (a b : RetrievedContext) : Prop := b.score ≤ a.score

instance : DecidableRel scoreDesc := fun a b =>
  inferInstanceAs (Decidable (b.score ≤ a.score))

instance : IsTotal RetrievedContext scoreDesc :=
  ⟨fun a b => le_total b.score a.score⟩

instance : IsTrans RetrievedContext scoreDesc :=
  ⟨fun _ _ _ h1 h2 => le_trans h2 h1⟩

/-- `retrieveContext` for `type = "both"` (`src/retriever.ts` lines 17–27).
`Math.ceil(topK / 2) = (topK + 1) / 2` in `Nat`.  The JS `Array.sort` is a
stable sort; insertion sort models it. -/
def retrieveBoth (query : Nat → Partition → List RetrievedContext) (topK : Nat) :
    List RetrievedContext :=
  let codeResults := query topK .code
  let knowledgeResults := query ((topK + 1) / 2) .knowledge
  let combined := codeResults ++ knowledgeResults
  (combined.insertionSort scoreDesc).take topK

/-! ## Facts about the chunker -/

lemma getD_eq_false_of_all_false {boundaryP : String → Bool} {lines : List String}
    (hb : ∀ l ∈ lines, boundaryP l = false) {i : Nat} (hilt : i < lines.length) :
    boundaryP (lines.getD i "") = false := by
  rw [List.getD_eq_getElem lines "" hilt]
  exact hb _ (List.getElem_mem hilt)

lemma findBoundary_eq_none (boundaryP : String → Bool) (lines : List String) (s : Nat)
    (hb : ∀ l ∈ lines, boundaryP l = false) :
    findBoundary boundaryP lines s = none := by
  apply List.find?_eq_none.mpr
  intro i hi
  obtain ⟨h1, h2⟩ := List.mem_range'_1.mp hi
  have hilt : i < lines.length := by omega
  simp only [Bool.not_eq_true]
  exact getD_eq_false_of_all_false hb hilt

lemma findBoundary_some_bounds {boundaryP : String → Bool} {lines : List String}
    {s i : Nat} (h : findBoundary boundaryP lines s = some i) :
    s + TARGET_CHUNK_LINES ≤ i ∧ i < lines.length ∧ i < s + MAX_CHUNK_LINES ∧
      boundaryP (lines.getD i "") = true := by
  have hmem := List.mem_of_find?_eq_some h
  have hp := List.find?_some h
  obtain ⟨h1, h2⟩ := List.mem_range'_1.mp hmem
  exact ⟨h1, by omega, by omega, hp⟩

/-- The fallback guard `chunkEnd - chunkStart ≥ MAX` can never hold at the
point it is tested: `chunkEnd` is still `min(chunkStart + TARGET, N)` there,
so the difference is at most `TARGET = 40 < 80 = MAX`. -/
lemma forced_split_guard_false (lines : List String) (s : Nat) :
    ¬ (MAX_CHUNK_LINES ≤ min (s + TARGET_CHUNK_LINES) lines.length - s) := by
  simp only [TARGET_CHUNK_LINES, MAX_CHUNK_LINES]
  omega

lemma chunkStep_flag (boundaryP : String → Bool) (lines : List String) (s : Nat) :
    (chunkStep boundaryP lines s).2 = false := by
  unfold chunkStep
  split
  · cases hfb : findBoundary boundaryP lines s with
    | some i => rfl
    | none => rw [if_neg (forced_split_guard_false lines s)]
  · rfl

/-- With no boundary line anywhere in the file, every step cuts at
`min(chunkStart + TARGET, N)`. -/
lemma chunkStep_of_no_boundary {boundaryP : String → Bool} {lines : List String}
    (s : Nat) (hb : ∀ l ∈ lines, boundaryP l = false) :
    chunkStep boundaryP lines s = (min (s + TARGET_CHUNK_LINES) lines.length, false) := by
  unfold chunkStep
  split
  · cases hfb : findBoundary boundaryP lines s with
    | some i =>
      obtain ⟨_, hi2, _, hi4⟩ := findBoundary_some_bounds hfb
      rw [getD_eq_false_of_all_false hb hi2] at hi4
      cases hi4
    | none => rw [if_neg (forced_split_guard_false lines s)]
  · rfl

/-- Case analysis of `chunkStep`. -/
lemma chunkStep_spec (boundaryP : String → Bool) (lines : List String) (s : Nat) :
    (chunkStep boundaryP lines s).1 = lines.length ∧ lines.length ≤ s + TARGET_CHUNK_LINES
    ∨ (chunkStep boundaryP lines s).1 = s + TARGET_CHUNK_LINES ∧
        s + TARGET_CHUNK_LINES < lines.length ∧ findBoundary boundaryP lines s = none
    ∨ findBoundary boundaryP lines s = some (chunkStep boundaryP lines s).1 ∧
        s + TARGET_CHUNK_LINES ≤ (chunkStep boundaryP lines s).1 ∧
        (chunkStep boundaryP lines s).1 < lines.length ∧
        (chunkStep boundaryP lines s).1 < s + MAX_CHUNK_LINES ∧
        boundaryP (lines.getD (chunkStep boundaryP lines s).1 "") = true := by
  unfold chunkStep
  split
  case isTrue h0 =>
    cases hfb : findBoundary boundaryP lines s with
    | some i =>
      obtain ⟨hi1, hi2, hi3, hi4⟩ := findBoundary_some_bounds hfb
      exact Or.inr (Or.inr ⟨rfl, hi1, hi2, hi3, hi4⟩)
    | none =>
      rw [if_neg (forced_split_guard_false lines s)]
      refine Or.inr (Or.inl ⟨?_, ?_, rfl⟩)
      · show min (s + TARGET_CHUNK_LINES) lines.length = s + TARGET_CHUNK_LINES
        omega
      · omega
  case isFalse h0 =>
    refine Or.inl ⟨?_, ?_⟩
    · show min (s + TARGET_CHUNK_LINES) lines.length = lines.length
      omega
    · omega

/-- The accumulated fallback flag never changes: the forced-split branch is
never entered. -/
lemma chunkLoop_flag (boundaryP importP : String → Bool) (fp lang : String)
    (lines : List String) :
    ∀ fuel s acc fb, (chunkLoop boundaryP importP fp lang lines fuel s acc fb).2 = fb := by
  intro fuel
  induction fuel with
  | zero => intro s acc fb; rfl
  | succ n ih =>
    intro s acc fb
    rw [chunkLoop]
    split
    · rw [ih, chunkStep_flag]
      simp
    · rfl

/-- The per-chunk invariant maintained by the chunking loop. -/
def chunkInv (boundaryP : String → Bool) (fp : String) (lines : List String)
    (c : CodeChunk) : Prop :=
  c.filePath = fp ∧
  MIN_CHUNK_LINES ≤ chunkLen c ∧
  1 ≤ c.startLine ∧ c.endLine ≤ lines.length ∧
  (c.endLine < lines.length →
    TARGET_CHUNK_LINES ≤ chunkLen c ∧ chunkLen c < MAX_CHUNK_LINES ∧
    (findBoundary boundaryP lines (c.startLine - 1) = none →
      chunkLen c = TARGET_CHUNK_LINES) ∧
    (boundaryP (lines.getD c.endLine "") = true ∨ chunkLen c = TARGET_CHUNK_LINES))

/-- The chunk pushed by one loop iteration satisfies the invariant. -/
lemma pushed_chunk_inv (boundaryP importP : String → Bool) (fp lang : String)
    (lines : List String) (s : Nat)
    (hL : MIN_CHUNK_LINES ≤
      ((lines.drop s).take ((chunkStep boundaryP lines s).1 - s)).length) :
    chunkInv boundaryP fp lines
      { filePath := fp, language := lang, startLine := s + 1,
        endLine := (chunkStep boundaryP lines s).1,
        content := String.intercalate "\n"
          ((lines.drop s).take ((chunkStep boundaryP lines s).1 - s)),
        chunkKind := classifyChunk importP boundaryP
          ((lines.drop s).take ((chunkStep boundaryP lines s).1 - s)) } := by
  rw [List.length_take, List.length_drop] at hL
  rcases chunkStep_spec boundaryP lines s with ⟨h1, h2⟩ | ⟨h1, h2, h3⟩ | ⟨h1, h2, h3, h4, h5⟩
  all_goals
    simp only [chunkInv, chunkLen, Nat.add_sub_cancel, MIN_CHUNK_LINES, TARGET_CHUNK_LINES,
      MAX_CHUNK_LINES] at *
  · refine ⟨trivial, by omega, by omega, by omega, ?_⟩
    intro hlt
    exact absurd hlt (by omega)
  · refine ⟨trivial, by omega, by omega, by omega, ?_⟩
    intro _
    exact ⟨by omega, by omega, fun _ => by omega, Or.inr (by omega)⟩
  · refine ⟨trivial, by omega, by omega, by omega, ?_⟩
    intro _
    refine ⟨by omega, by omega, ?_, Or.inl h5⟩
    intro hn
    rw [h1] at hn
    cases hn

lemma chunkLoop_inv (boundaryP importP : String → Bool) (fp lang : String)
    (lines : List String) :
    ∀ fuel s acc fb, (∀ c ∈ acc, chunkInv boundaryP fp lines c) →
      ∀ c ∈ (chunkLoop boundaryP importP fp lang lines fuel s acc fb).1,
        chunkInv boundaryP fp lines c := by
  intro fuel
  induction fuel with
  | zero => intro s acc fb hacc; exact hacc
  | succ n ih =>
    intro s acc fb hacc
    rw [chunkLoop]
    by_cases h : s < lines.length
    · rw [if_pos h]
      apply ih
      intro c hc
      by_cases hL : MIN_CHUNK_LINES ≤
          ((lines.drop s).take ((chunkStep boundaryP lines s).1 - s)).length
      · rw [if_pos hL] at hc
        rcases List.mem_append.mp hc with hmem | hnew
        · exact hacc c hmem
        · rw [List.mem_singleton.mp hnew]
          exact pushed_chunk_inv boundaryP importP fp lang lines s hL
      · rw [if_neg hL] at hc
        exact hacc c hc
    · rw [if_neg h]
      exact hacc

/-- Every chunk `chunkFile` emits satisfies the loop invariant. -/
lemma chunkFromLines_inv (boundaryP importP : String → Bool) (fp lang : String)
    (lines : List String) :
    ∀ c ∈ chunkFromLines boundaryP importP fp lang lines, chunkInv boundaryP fp lines c := by
  intro c hc
  unfold chunkFromLines chunkFromLinesWithFlag at hc
  by_cases hsmall : lines.length ≤ TARGET_CHUNK_LINES
  · rw [if_pos hsmall] at hc
    by_cases htiny : lines.length < MIN_CHUNK_LINES
    · rw [if_pos htiny] at hc
      cases hc
    · rw [if_neg htiny] at hc
      have hceq : c = { filePath := fp, language := lang, startLine := 1,
                        endLine := lines.length,
                        content := String.intercalate "\n" lines,
                        chunkKind := classifyChunk importP boundaryP lines } := by
        simpa using hc
      subst hceq
      simp only [chunkInv, chunkLen, MIN_CHUNK_LINES, TARGET_CHUNK_LINES] at htiny hsmall ⊢
      refine ⟨trivial, by omega, by omega, by omega, ?_⟩
      intro hlt
      exact absurd hlt (by omega)
  · rw [if_neg hsmall] at hc
    exact chunkLoop_inv boundaryP importP fp lang lines _ 0 [] false (by intro c hc; cases hc)
      c hc

/-- An index-only mirror of the chunking loop for boundary-free files: with
no boundary line anywhere in the file, the emitted `(startLine, endLine)`
pairs depend only on the line count. -/
def chunkPlan (N : Nat) : Nat → Nat → List (Nat × Nat) → List (Nat × Nat)
  | 0, _, acc => acc
  | fuel + 1, s, acc =>
    if s < N then
      let E := min (s + TARGET_CHUNK_LINES) N
      let L := min (E - s) (N - s)
      let acc' := if MIN_CHUNK_LINES ≤ L then acc ++ [(s + 1, E)] else acc
      let s1 := E - OVERLAP_LINES
      let threshold := if 0 < acc'.length then E - L else 0
      chunkPlan N fuel (if s1 ≤ threshold then E else s1) acc'
    else acc

lemma chunkLoop_ranges_eq_plan (boundaryP importP : String → Bool) (fp lang : String)
    (lines : List String) (hb : ∀ l ∈ lines, boundaryP l = false) :
    ∀ fuel s acc fb,
      ((chunkLoop boundaryP importP fp lang lines fuel s acc fb).1).map
          (fun c => (c.startLine, c.endLine))
        = chunkPlan lines.length fuel s (acc.map (fun c => (c.startLine, c.endLine))) := by
  have hcs : ∀ t, chunkStep boundaryP lines t
      = (min (t + TARGET_CHUNK_LINES) lines.length, false) :=
    fun t => chunkStep_of_no_boundary t hb
  intro fuel
  induction fuel with
  | zero => intro s acc fb; rfl
  | succ n ih =>
    intro s acc fb
    rw [chunkLoop, chunkPlan]
    by_cases h : s < lines.length
    · rw [if_pos h, if_pos h, hcs s]
      rw [ih]
      simp only [List.length_take, List.length_drop, List.length_map, List.map_append,
        List.map_cons, List.map_nil, List.length_append, List.length_cons, List.length_nil,
        apply_ite (List.map (fun c : CodeChunk => (c.startLine, c.endLine))),
        apply_ite List.length]
    · rw [if_neg h, if_neg h]

/-! ## Claim C1 — Scenario A (100-line boundary-free file)

The claim says `chunkFile` returns exactly three chunks `(1,40)`, `(36,75)`,
`(71,100)`.  The loop in fact runs a fourth iteration from
`chunkStart = 95`: the trailing 5-line slice `(96,100)` passes the
`length ≥ MIN` check and is emitted as a fourth chunk. -/

/-- C1 (counterexample): on a concrete 100-line file with no boundary line,
`chunkFile` does not return the three claimed chunks — it returns four. -/
theorem chunkFile_scenarioA_counterexample :
    ¬ ((chunkFromLines (fun _ => false) (fun _ => false) "file.ts" "typescript"
          (List.replicate 100 "x")).map (fun c => (c.startLine, c.endLine))
        = [(1, 40), (36, 75), (71, 100)]) ∧
    (chunkFromLines (fun _ => false) (fun _ => false) "file.ts" "typescript"
        (List.replicate 100 "x")).length = 4 := by
  constructor
  · decide
  · decide

/-- C1 (amended): for any 100-line file in which no line matches the boundary
pattern, `chunkFile` with the default parameters returns exactly four chunks
with 1-based inclusive line ranges `(1,40)`, `(36,75)`, `(71,100)`,
`(96,100)` (lengths 40, 40, 30 and 5). -/
theorem chunkFile_scenarioA (boundaryP importP : String → Bool) (fp lang : String)
    (lines : List String) (hlen : lines.length = 100)
    (hb : ∀ l ∈ lines, boundaryP l = false) :
    (chunkFromLines boundaryP importP fp lang lines).map (fun c => (c.startLine, c.endLine))
      = [(1, 40), (36, 75), (71, 100), (96, 100)] := by
  unfold chunkFromLines chunkFromLinesWithFlag
  rw [if_neg (by rw [hlen]; decide)]
  rw [chunkLoop_ranges_eq_plan boundaryP importP fp lang lines hb (lines.length + 1) 0 []
    false]
  rw [hlen]
  decide

/-- C1 witness: the amended theorem applied to the concrete file of a hundred
`"x"` lines. -/
theorem chunkFile_scenarioA_witness :
    (chunkFromLines (fun _ => false) (fun _ => false) "file.ts" "typescript"
        (List.replicate 100 "x")).map (fun c => (c.startLine, c.endLine))
      = [(1, 40), (36, 75), (71, 100), (96, 100)] :=
  chunkFile_scenarioA (fun _ => false) (fun _ => false) "file.ts" "typescript"
    (List.replicate 100 "x") (by decide) (fun l _ => rfl)

/-! ## Claim C2 — P2 (size bounds)

The `length ≥ MIN` lower bound holds for every chunk, and the stated upper
structure holds for every chunk that stops short of the end of the file.  But
"not the file's final chunk" is wrong: a chunk that reaches the end of the
file need not be the last one emitted (the loop can emit a further
overlapping tail chunk), and such a chunk can be shorter than `TARGET` with
no boundary involved. -/

/-- C2 (counterexample): on a 100-line boundary-free file the third of the
four emitted chunks is not the file's final chunk, no boundary split
occurred anywhere, yet its length is 30, not `TARGET = 40`. -/
theorem chunkFile_nonfinal_short_chunk :
    ((chunkFromLines (fun _ => false) (fun _ => false) "file.ts" "typescript"
        (List.replicate 100 "x")).map chunkLen = [40, 40, 30, 5]) ∧
    ¬ (∀ c ∈ (chunkFromLines (fun _ => false) (fun _ => false) "file.ts" "typescript"
          (List.replicate 100 "x")).dropLast,
        chunkLen c = TARGET_CHUNK_LINES) := by
  constructor
  · decide
  · decide

/-- C2 (amended): every chunk `chunkFile` emits has at least `MIN = 5` lines;
every chunk whose `endLine` is strictly before the end of the file has
between `TARGET = 40` and `MAX = 80` lines, and exactly `TARGET = 40` lines
when no line of its search window matches the boundary pattern.  (Chunks that
extend to the last line of the file — including non-final ones produced by
the overlapping tail iterations — may be shorter.) -/
theorem chunkFile_size_bounds (boundaryP importP : String → Bool) (fp lang : String)
    (lines : List String) :
    ∀ c ∈ chunkFromLines boundaryP importP fp lang lines,
      MIN_CHUNK_LINES ≤ chunkLen c ∧
      (c.endLine < lines.length →
        TARGET_CHUNK_LINES ≤ chunkLen c ∧ chunkLen c ≤ MAX_CHUNK_LINES ∧
        (findBoundary boundaryP lines (c.startLine - 1) = none →
          chunkLen c = TARGET_CHUNK_LINES)) := by
  intro c hc
  obtain ⟨-, h2, -, -, h5⟩ := chunkFromLines_inv boundaryP importP fp lang lines c hc
  exact ⟨h2, fun hlt => ⟨(h5 hlt).1, le_of_lt (h5 hlt).2.1, (h5 hlt).2.2.1⟩⟩

/-- C2 witness: the amended size bounds applied to the first chunk of the
concrete 100-line boundary-free file. -/
theorem chunkFile_size_bounds_witness :
    MIN_CHUNK_LINES ≤ chunkLen ((chunkFromLines (fun _ => false) (fun _ => false) "file.ts"
        "typescript" (List.replicate 100 "x")).getD 0 emptyChunk) ∧
    (((chunkFromLines (fun _ => false) (fun _ => false) "file.ts" "typescript"
          (List.replicate 100 "x")).getD 0 emptyChunk).endLine
        < (List.replicate 100 "x" : List String).length →
      TARGET_CHUNK_LINES ≤ chunkLen ((chunkFromLines (fun _ => false) (fun _ => false)
          "file.ts" "typescript" (List.replicate 100 "x")).getD 0 emptyChunk) ∧
      chunkLen ((chunkFromLines (fun _ => false) (fun _ => false) "file.ts" "typescript"
          (List.replicate 100 "x")).getD 0 emptyChunk) ≤ MAX_CHUNK_LINES ∧
      (findBoundary (fun _ => false) (List.replicate 100 "x")
          (((chunkFromLines (fun _ => false) (fun _ => false) "file.ts" "typescript"
              (List.replicate 100 "x")).getD 0 emptyChunk).startLine - 1) = none →
        chunkLen ((chunkFromLines (fun _ => false) (fun _ => false) "file.ts" "typescript"
            (List.replicate 100 "x")).getD 0 emptyChunk) = TARGET_CHUNK_LINES)) :=
  chunkFile_size_bounds (fun _ => false) (fun _ => false) "file.ts" "typescript"
    (List.replicate 100 "x") _ (by decide)

/-! ## Claim C8 — the forced-split fallback is dead code -/

/-- C8: for every input, the forced-split-at-blank-line branch of `chunkFile`
is never entered (the instrumentation flag stays `false`), and consequently
every chunk that stops short of the end of the file ends either exactly at
`TARGET` lines or at a line matching the boundary pattern. -/
theorem chunkFile_forced_split_dead (boundaryP importP : String → Bool) (fp lang : String)
    (lines : List String) :
    (chunkFromLinesWithFlag boundaryP importP fp lang lines).2 = false ∧
    ∀ c ∈ chunkFromLines boundaryP importP fp lang lines,
      c.endLine < lines.length →
        chunkLen c = TARGET_CHUNK_LINES ∨ boundaryP (lines.getD c.endLine "") = true := by
  constructor
  · unfold chunkFromLinesWithFlag
    split
    · split <;> rfl
    · exact chunkLoop_flag boundaryP importP fp lang lines (lines.length + 1) 0 [] false
  · intro c hc hlt
    obtain ⟨-, -, -, -, h5⟩ := chunkFromLines_inv boundaryP importP fp lang lines c hc
    exact ((h5 hlt).2.2.2).symm

/-- C8 witness: the dead-branch theorem applied to a concrete 41-line file
(its first chunk stops at line 40, short of the end). -/
theorem chunkFile_forced_split_dead_witness :
    (chunkFromLinesWithFlag (fun _ => false) (fun _ => false) "f.ts" "ts"
        (List.replicate 41 "x")).2 = false ∧
    (chunkLen ((chunkFromLines (fun _ => false) (fun _ => false) "f.ts" "ts"
          (List.replicate 41 "x")).getD 0 emptyChunk) = TARGET_CHUNK_LINES ∨
      (fun _ : String => false) ((List.replicate 41 "x" : List String).getD
          (((chunkFromLines (fun _ => false) (fun _ => false) "f.ts" "ts"
              (List.replicate 41 "x")).getD 0 emptyChunk).endLine) "") = true) :=
  ⟨(chunkFile_forced_split_dead (fun _ => false) (fun _ => false) "f.ts" "ts"
      (List.replicate 41 "x")).1,
   (chunkFile_forced_split_dead (fun _ => false) (fun _ => false) "f.ts" "ts"
      (List.replicate 41 "x")).2 _ (by decide) (by decide)⟩

/-! ## Claim C9 — chunk classification -/

/-- C9: `classifyChunk` inspects the first non-blank line: an import-pattern
match yields `imports` (taking precedence over a simultaneous boundary-pattern
match); otherwise a class-heuristic match yields `class`; otherwise a
boundary-pattern match yields `function`; otherwise `general`. -/
theorem classifyChunk_spec (importP boundaryP : String → Bool) (lines : List String) :
    (importP (firstNonBlank lines) = true →
      classifyChunk importP boundaryP lines = .imports) ∧
    (importP (firstNonBlank lines) = true → boundaryP (firstNonBlank lines) = true →
      classifyChunk importP boundaryP lines = .imports) ∧
    (importP (firstNonBlank lines) = false → classHeuristic (firstNonBlank lines) = true →
      classifyChunk importP boundaryP lines = .cls) ∧
    (importP (firstNonBlank lines) = false → classHeuristic (firstNonBlank lines) = false →
      boundaryP (firstNonBlank lines) = true →
      classifyChunk importP boundaryP lines = .fn) ∧
    (importP (firstNonBlank lines) = false → classHeuristic (firstNonBlank lines) = false →
      boundaryP (firstNonBlank lines) = false →
      classifyChunk importP boundaryP lines = .general) := by
  refine ⟨?_, ?_, ?_, ?_, ?_⟩
  · intro h1
    simp [classifyChunk, h1]
  · intro h1 _
    simp [classifyChunk, h1]
  · intro h1 h2
    simp [classifyChunk, h1, h2]
  · intro h1 h2 h3
    simp [classifyChunk, h1, h2, h3]
  · intro h1 h2 h3
    simp [classifyChunk, h1, h2, h3]

/-- C9 witness: a chunk whose first non-blank line matches both the import
and the boundary pattern is classified `imports`. -/
theorem classifyChunk_spec_witness :
    classifyChunk (fun s => s == "import x") (fun s => s == "import x")
      ["", "import x", "y"] = .imports :=
  (classifyChunk_spec (fun s => s == "import x") (fun s => s == "import x")
      ["", "import x", "y"]).2.1 (by decide) (by decide)

/-! ## Facts about the manifest map -/

lemma replace_pred_comp (k : String) (v : ManifestEntry) (f : String) :
    ((fun p : String × ManifestEntry => p.1 == f) ∘
        (fun p => if p.1 == k then (k, v) else p))
      = (fun p : String × ManifestEntry => p.1 == f) := by
  funext p
  by_cases hp : p.1 = k
  · simp [hp]
  · simp [hp]

lemma lookupEntry_map_replace_ne (m : ManifestFiles) (k : String) (v : ManifestEntry)
    (f : String) (hf : f ≠ k) :
    lookupEntry (m.map (fun p => if p.1 == k then (k, v) else p)) f = lookupEntry m f := by
  unfold lookupEntry
  rw [List.find?_map, replace_pred_comp]
  cases hfind : m.find? (fun p => p.1 == f) with
  | none => rfl
  | some p =>
    have hpf : p.1 = f := by simpa using List.find?_some hfind
    have hrepl : (if p.1 == k then (k, v) else p) = p := by
      rw [if_neg]
      simp [hpf, hf]
    simp only [Option.map_some', hrepl]

lemma lookupEntry_upsert_self (m : ManifestFiles) (k : String) (v : ManifestEntry) :
    lookupEntry (upsertEntry m k v) k = some v := by
  unfold upsertEntry
  by_cases hs : (m.find? (fun p => p.1 == k)).isSome
  · rw [if_pos hs]
    unfold lookupEntry
    rw [List.find?_map, replace_pred_comp]
    obtain ⟨p, hp⟩ := Option.isSome_iff_exists.mp hs
    rw [hp]
    have hpk : p.1 = k := by simpa using List.find?_some hp
    simp [hpk]
  · rw [if_neg hs]
    have hnone : m.find? (fun p => p.1 == k) = none := by
      cases hfind : m.find? (fun p => p.1 == k) with
      | none => rfl
      | some p => rw [hfind] at hs; simp at hs
    simp [lookupEntry, List.find?_append, hnone]

lemma lookupEntry_upsert (m : ManifestFiles) (k : String) (v : ManifestEntry) (f : String) :
    lookupEntry (upsertEntry m k v) f = if f = k then some v else lookupEntry m f := by
  by_cases hf : f = k
  · subst hf
    rw [if_pos rfl]
    exact lookupEntry_upsert_self m f v
  · rw [if_neg hf]
    unfold upsertEntry
    by_cases hs : (m.find? (fun p => p.1 == k)).isSome
    · rw [if_pos hs]
      exact lookupEntry_map_replace_ne m k v f hf
    · rw [if_neg hs]
      have hk : (((k, v) : String × ManifestEntry).1 == f) = false := by simp [Ne.symm hf]
      simp [lookupEntry, List.find?_append, hk]

lemma lookupEntry_foldl_upsert (g : String → ManifestEntry) :
    ∀ (fs : List String) (m : ManifestFiles) (f : String),
      lookupEntry (fs.foldl (fun acc x => upsertEntry acc x (g x)) m) f
        = if f ∈ fs then some (g f) else lookupEntry m f := by
  intro fs
  induction fs with
  | nil => intro m f; simp
  | cons x rest ih =>
    intro m f
    rw [List.foldl_cons, ih]
    by_cases hr : f ∈ rest
    · rw [if_pos hr, if_pos (List.mem_cons_of_mem x hr)]
    · rw [if_neg hr, lookupEntry_upsert]
      by_cases hx : f = x
      · subst hx
        rw [if_pos rfl, if_pos (List.mem_cons_self f rest)]
      · rw [if_neg hx, if_neg (by simp [hx, hr])]

/-! ## Facts about `toProcess` and `chunkAllFiles` -/

lemma mem_toProcess_iff (env : TrainEnv) (m : ManifestFiles) (files : List String)
    (f : String) :
    f ∈ toProcess env m files ↔
      f ∈ files ∧ (lookupEntry m f = none ∨
        ∃ e, lookupEntry m f = some e ∧ e.mtime ≠ env.mtime f) := by
  unfold toProcess
  rw [List.mem_filter]
  cases hm : lookupEntry m f with
  | none => simp [hm]
  | some e => simp [hm, bne_iff_ne]

lemma not_mem_toProcess {env : TrainEnv} {m : ManifestFiles} {files : List String}
    {f : String} (hfile : f ∈ files) (hnot : f ∉ toProcess env m files) :
    ∃ e, lookupEntry m f = some e ∧ e.mtime = env.mtime f := by
  rw [mem_toProcess_iff] at hnot
  push_neg at hnot
  obtain ⟨h1, h2⟩ := hnot hfile
  cases hm : lookupEntry m f with
  | none => exact absurd hm h1
  | some e => exact ⟨e, rfl, h2 e hm⟩

lemma chunkFile_filePath (boundaryP importP : String → Bool) (fp lang content : String) :
    ∀ c ∈ chunkFile boundaryP importP fp lang content, c.filePath = fp := by
  intro c hc
  exact (chunkFromLines_inv boundaryP importP fp lang _ c hc).1

lemma mem_chunkAllFiles {env : TrainEnv} {files : List String} {c : CodeChunk}
    (hc : c ∈ chunkAllFiles env files) :
    c.filePath ∈ files ∧ (env.contentOf c.filePath).isSome := by
  unfold chunkAllFiles at hc
  obtain ⟨g, hg, hcg⟩ := List.mem_flatMap.mp hc
  cases hco : env.contentOf g with
  | none => rw [hco] at hcg; cases hcg
  | some content =>
    rw [hco] at hcg
    have hfp : c.filePath = g := chunkFile_filePath env.boundaryP env.importP g
      (env.languageOf g) content c hcg
    rw [hfp, hco]
    exact ⟨hg, rfl⟩

/-- A file whose read fails contributes no chunks, so its per-file chunk
count is zero. -/
lemma chunkAllFiles_filter_failed {env : TrainEnv} {files : List String} {f : String}
    (hf : env.contentOf f = none) :
    (chunkAllFiles env files).filter (fun c => c.filePath == f) = [] := by
  rw [List.filter_eq_nil_iff]
  intro c hc
  obtain ⟨-, hsome⟩ := mem_chunkAllFiles hc
  intro hbeq
  rw [beq_iff_eq] at hbeq
  rw [hbeq, hf] at hsome
  cases hsome

/-! ## Claim C3 — incremental manifest update

The selection of files to re-process is as the claim states.  But the map
`train` writes is the *old* `files` map overridden by fresh entries for the
processed files: an entry whose path is no longer discovered (a deleted
file) is also carried over verbatim, so the written manifest is strictly
larger than the claimed union of unchanged-discovered entries and fresh
processed entries. -/

/-- A concrete training environment: `a.ts` at mtime 100 (unchanged),
`b.ts` new at mtime 50 with ten lines of content, everything else
unreadable. -/
def envC3 : TrainEnv where
  boundaryP := fun _ => false
  importP := fun _ => false
  languageOf := fun _ => "typescript"
  mtime := fun f => if f = "a.ts" then 100 else if f = "b.ts" then 50 else 1
  contentOf := fun f =>
    if f = "b.ts" then some "a\nb\nc\nd\ne\nf\ng\nh\ni\nj" else none

/-- A manifest holding an entry for `a.ts` and a stale entry for the
no-longer-discovered file `c.ts`. -/
def oldC3 : ManifestFiles :=
  [("c.ts", { mtime := 1, chunkCount := 2 }), ("a.ts", { mtime := 100, chunkCount := 3 })]

/-- C3 (counterexample): with a prior manifest containing an entry for the
deleted file `c.ts`, the manifest `train` writes still contains that entry,
while the union described by the claim (unchanged discovered entries plus
fresh processed entries) does not — the written manifest is not that union. -/
theorem train_manifest_not_spec_union :
    (train envC3 (some oldC3) ["a.ts", "b.ts"]).savedFiles ≠
      some (specUnionManifest envC3 oldC3 ["a.ts", "b.ts"]
        (train envC3 (some oldC3) ["a.ts", "b.ts"]).chunks) ∧
    lookupEntry (((train envC3 (some oldC3) ["a.ts", "b.ts"]).savedFiles).getD [])
        "c.ts" = some { mtime := 1, chunkCount := 2 } ∧
    lookupEntry (specUnionManifest envC3 oldC3 ["a.ts", "b.ts"]
        (train envC3 (some oldC3) ["a.ts", "b.ts"]).chunks) "c.ts" = none ∧
    "c.ts" ∉ ["a.ts", "b.ts"] := by
  refine ⟨by decide, by decide, by decide, by decide⟩

/-- Shape of an incremental run with work to do. -/
lemma train_some_nonempty (env : TrainEnv) (m : ManifestFiles) (files : List String)
    (hemp : (toProcess env m files).isEmpty = false) :
    train env (some m) files =
      { filesToProcess := toProcess env m files
        chunks := chunkAllFiles env (toProcess env m files)
        savedFiles := some ((toProcess env m files).foldl
          (fun acc f => upsertEntry acc f
            (freshEntry env (chunkAllFiles env (toProcess env m files)) f)) m) } := by
  simp only [train]
  rw [hemp]
  rfl

/-- Shape of an incremental run with nothing to do: it returns early, saving
nothing. -/
lemma train_some_empty (env : TrainEnv) (m : ManifestFiles) (files : List String)
    (hemp : (toProcess env m files).isEmpty = true) :
    train env (some m) files =
      { filesToProcess := [], chunks := [], savedFiles := none } := by
  simp only [train]
  rw [hemp]
  rfl

/-- Shape of a full (manifest-less) run. -/
lemma train_none_eq (env : TrainEnv) (files : List String) :
    train env none files =
      { filesToProcess := files
        chunks := chunkAllFiles env files
        savedFiles := some (files.foldl
          (fun acc f => upsertEntry acc f
            (freshEntry env (chunkAllFiles env files) f)) []) } := rfl

/-- C3 (amended): on an incremental run with at least one new/changed file,
`train` re-processes exactly the discovered files with a missing manifest
entry or a differing mtime, and the written `files` map agrees with the old
map overridden, at each processed path, by a fresh `{mtime, chunkCount}`
entry — so unchanged discovered entries are copied verbatim, processed files
get fresh entries, and entries for no-longer-discovered files are retained
as well. -/
theorem train_incremental_manifest (env : TrainEnv) (m : ManifestFiles)
    (files : List String) (hne : toProcess env m files ≠ []) :
    (train env (some m) files).filesToProcess = toProcess env m files ∧
    (∀ f, f ∈ toProcess env m files ↔
      f ∈ files ∧ (lookupEntry m f = none ∨
        ∃ e, lookupEntry m f = some e ∧ e.mtime ≠ env.mtime f)) ∧
    ∃ nf, (train env (some m) files).savedFiles = some nf ∧
      ∀ f, lookupEntry nf f =
        if f ∈ toProcess env m files
        then some (freshEntry env (train env (some m) files).chunks f)
        else lookupEntry m f := by
  have hemp : (toProcess env m files).isEmpty = false := by
    cases hl : toProcess env m files with
    | nil => exact absurd hl hne
    | cons a l => rfl
  rw [train_some_nonempty env m files hemp]
  refine ⟨rfl, fun f => mem_toProcess_iff env m files f, _, rfl, fun f => ?_⟩
  rw [lookupEntry_foldl_upsert]

/-- C3 witness: the amended theorem at Scenario B — `a.ts` unchanged at
mtime 100, `b.ts` new at mtime 50 with one 10-line chunk: the saved manifest
keeps `a.ts` verbatim and holds a fresh entry for `b.ts`. -/
theorem train_incremental_manifest_witness :
    lookupEntry (((train envC3 (some [("a.ts", { mtime := 100, chunkCount := 3 })])
        ["a.ts", "b.ts"]).savedFiles).getD []) "a.ts"
      = some { mtime := 100, chunkCount := 3 } ∧
    lookupEntry (((train envC3 (some [("a.ts", { mtime := 100, chunkCount := 3 })])
        ["a.ts", "b.ts"]).savedFiles).getD []) "b.ts"
      = some { mtime := 50, chunkCount := 1 } := by
  obtain ⟨-, -, nf, hnf, hlook⟩ := train_incremental_manifest envC3
    [("a.ts", { mtime := 100, chunkCount := 3 })] ["a.ts", "b.ts"] (by decide)
  rw [hnf, Option.getD_some]
  constructor
  · rw [hlook "a.ts", if_neg (by decide)]
    decide
  · rw [hlook "b.ts", if_pos (by decide)]
    decide

/-! ## Claim C4 — incremental no-op -/

/-- C4: a second run over the manifest persisted by any first run, with no
file changes in between, selects zero files, creates no chunks (so nothing
is embedded or written to the index), and returns before rewriting the
manifest — the persisted manifest, its `files` map included, is untouched.
(`m1` below is the manifest on disk after the first run: the newly saved one
if the first run saved, else the pre-existing one.) -/
theorem train_second_run_noop (env : TrainEnv) (manifest : Option ManifestFiles)
    (files : List String) :
    (train env (some (((train env manifest files).savedFiles).getD (manifest.getD [])))
        files).filesToProcess = [] ∧
    (train env (some (((train env manifest files).savedFiles).getD (manifest.getD [])))
        files).chunks = [] ∧
    (train env (some (((train env manifest files).savedFiles).getD (manifest.getD [])))
        files).savedFiles = none := by
  set m1 := ((train env manifest files).savedFiles).getD (manifest.getD []) with hm1
  have hkey : ∀ f ∈ files, ∃ e, lookupEntry m1 f = some e ∧ e.mtime = env.mtime f := by
    intro f hf
    cases manifest with
    | none =>
      simp only [hm1, train_none_eq, Option.getD_some]
      rw [lookupEntry_foldl_upsert, if_pos hf]
      exact ⟨_, rfl, rfl⟩
    | some m =>
      by_cases hsel : (toProcess env m files).isEmpty = true
      · simp only [hm1, train_some_empty env m files hsel, Option.getD_none,
          Option.getD_some]
        have hnot : f ∉ toProcess env m files := by
          rw [List.isEmpty_iff.mp hsel]
          simp
        exact not_mem_toProcess hf hnot
      · rw [Bool.not_eq_true] at hsel
        simp only [hm1, train_some_nonempty env m files hsel, Option.getD_some]
        rw [lookupEntry_foldl_upsert]
        by_cases hpf : f ∈ toProcess env m files
        · rw [if_pos hpf]
          exact ⟨_, rfl, rfl⟩
        · rw [if_neg hpf]
          exact not_mem_toProcess hf hpf
  have hsel2 : toProcess env m1 files = [] := by
    apply List.filter_eq_nil_iff.mpr
    intro f hf
    obtain ⟨e, he, hmt⟩ := hkey f hf
    simp [he, hmt]
  have hemp : (toProcess env m1 files).isEmpty = true := by
    rw [hsel2]
    rfl
  rw [train_some_empty env m1 files hemp]
  exact ⟨rfl, rfl, rfl⟩

/-! ## Claim C10 — failed reads are recorded and never re-attempted -/

/-- C10: if a selected file's read fails on a run (so it contributes no
chunks while the run continues), the manifest written by that run still
records it with its current mtime and `chunkCount = 0`; on any subsequent
run over that manifest in which the file's mtime is unchanged, the file is
classified unchanged — it is not selected and no chunk of that run comes
from it. -/
theorem train_failed_read (env env2 : TrainEnv) (manifest : Option ManifestFiles)
    (files files2 : List String) (f : String)
    (hf : f ∈ (train env manifest files).filesToProcess)
    (hread : env.contentOf f = none)
    (hmt : env2.mtime f = env.mtime f) :
    ∃ nf, (train env manifest files).savedFiles = some nf ∧
      lookupEntry nf f = some { mtime := env.mtime f, chunkCount := 0 } ∧
      f ∉ (train env2 (some nf) files2).filesToProcess ∧
      ∀ c ∈ (train env2 (some nf) files2).chunks, c.filePath ≠ f := by
  obtain ⟨sel, hsel_eq, hsaved⟩ :
      ∃ sel, (train env manifest files).filesToProcess = sel ∧
        (train env manifest files).savedFiles
          = some (sel.foldl (fun acc x =>
              upsertEntry acc x (freshEntry env (chunkAllFiles env sel) x))
              (manifest.getD [])) := by
    cases manifest with
    | none => exact ⟨files, rfl, rfl⟩
    | some m =>
      by_cases hsel : (toProcess env m files).isEmpty = true
      · rw [train_some_empty env m files hsel] at hf
        cases hf
      · rw [Bool.not_eq_true] at hsel
        refine ⟨toProcess env m files, by rw [train_some_nonempty env m files hsel], ?_⟩
        rw [train_some_nonempty env m files hsel]
        rfl
  have hfsel : f ∈ sel := hsel_eq ▸ hf
  have hfresh : freshEntry env (chunkAllFiles env sel) f
      = { mtime := env.mtime f, chunkCount := 0 } := by
    unfold freshEntry
    rw [chunkAllFiles_filter_failed hread]
    rfl
  have hlookup : lookupEntry (sel.foldl (fun acc x =>
      upsertEntry acc x (freshEntry env (chunkAllFiles env sel) x))
      (manifest.getD [])) f = some { mtime := env.mtime f, chunkCount := 0 } := by
    rw [lookupEntry_foldl_upsert, if_pos hfsel, hfresh]
  refine ⟨_, hsaved, hlookup, ?_, ?_⟩
  · have hnot2 : f ∉ toProcess env2 (sel.foldl (fun acc x =>
        upsertEntry acc x (freshEntry env (chunkAllFiles env sel) x))
        (manifest.getD [])) files2 := by
      intro hmem
      rw [mem_toProcess_iff] at hmem
      rcases hmem.2 with hnone | ⟨e, he, hne⟩
      · rw [hlookup] at hnone
        cases hnone
      · rw [hlookup] at he
        cases he
        exact hne (by rw [hmt])
    by_cases hs2 : (toProcess env2 (sel.foldl (fun acc x =>
        upsertEntry acc x (freshEntry env (chunkAllFiles env sel) x))
        (manifest.getD [])) files2).isEmpty = true
    · rw [train_some_empty _ _ _ hs2]
      simp
    · rw [Bool.not_eq_true] at hs2
      rw [train_some_nonempty _ _ _ hs2]
      exact hnot2
  · have hnot2 : f ∉ toProcess env2 (sel.foldl (fun acc x =>
        upsertEntry acc x (freshEntry env (chunkAllFiles env sel) x))
        (manifest.getD [])) files2 := by
      intro hmem
      rw [mem_toProcess_iff] at hmem
      rcases hmem.2 with hnone | ⟨e, he, hne⟩
      · rw [hlookup] at hnone
        cases hnone
      · rw [hlookup] at he
        cases he
        exact hne (by rw [hmt])
    by_cases hs2 : (toProcess env2 (sel.foldl (fun acc x =>
        upsertEntry acc x (freshEntry env (chunkAllFiles env sel) x))
        (manifest.getD [])) files2).isEmpty = true
    · rw [train_some_empty _ _ _ hs2]
      intro c hc
      cases hc
    · rw [Bool.not_eq_true] at hs2
      rw [train_some_nonempty _ _ _ hs2]
      intro c hc hceq
      obtain ⟨hmemc, -⟩ := mem_chunkAllFiles hc
      rw [hceq] at hmemc
      exact hnot2 hmemc

/-! ## Facts about gitignore parsing and the glob segment semantics -/

lemma toList_append (a b : String) : (a ++ b).toList = a.toList ++ b.toList :=
  String.data_append a b

lemma mk_toList (s : String) : String.mk s.toList = s := by
  cases s
  rfl

lemma splitOnCharAux_append (sep : Char) (ys : List Char) :
    ∀ (xs acc : List Char),
      splitOnCharAux sep (xs ++ sep :: ys) acc
        = splitOnCharAux sep xs acc ++ splitOnChar sep ys := by
  intro xs
  induction xs with
  | nil =>
    intro acc
    simp [splitOnCharAux, splitOnChar]
  | cons x xt ih =>
    intro acc
    by_cases hx : x = sep
    · subst hx
      simp [splitOnCharAux, ih]
    · simp [splitOnCharAux, hx, ih]

lemma splitOnChar_append (sep : Char) (xs ys : List Char) :
    splitOnChar sep (xs ++ sep :: ys) = splitOnChar sep xs ++ splitOnChar sep ys :=
  splitOnCharAux_append sep ys xs []

lemma splitOnCharAux_no_sep (sep : Char) :
    ∀ (xs acc : List Char), sep ∉ xs →
      splitOnCharAux sep xs acc = [acc.reverse ++ xs] := by
  intro xs
  induction xs with
  | nil =>
    intro acc _
    simp [splitOnCharAux]
  | cons x xt ih =>
    intro acc hx
    have hxs : x ≠ sep := fun h => hx (h ▸ List.mem_cons_self x xt)
    have hxt : sep ∉ xt := fun h => hx (List.mem_cons_of_mem x h)
    simp [splitOnCharAux, hxs, ih _ hxt]

lemma splitOnChar_no_sep (sep : Char) (xs : List Char) (h : sep ∉ xs) :
    splitOnChar sep xs = [xs] := by
  simpa using splitOnCharAux_no_sep sep xs [] h

/-- If a pattern's characters contain a doubled slash followed by `**`, one
of its segments is empty. -/
lemma empty_mem_segments (t : String) (xs ys : List Char)
    (h : t.toList = xs ++ '/' :: '/' :: ys) : ("" : String) ∈ segmentsOf t := by
  unfold segmentsOf
  rw [h, splitOnChar_append]
  refine List.mem_map.mpr ⟨[], ?_, rfl⟩
  apply List.mem_append_right
  simp [splitOnChar, splitOnCharAux]

lemma gsmStar_self (g : List String → Bool) (ss : List String) (h : g ss = true) :
    gsmStar g ss = true := by
  cases ss <;> simp [gsmStar, h]

lemma gsmStar_skip (g : List String → Bool) :
    ∀ (d ss : List String), gsmStar g ss = true → gsmStar g (d ++ ss) = true := by
  intro d
  induction d with
  | nil => intro ss h; exact h
  | cons x dt ih =>
    intro ss h
    simp only [List.cons_append, gsmStar, Bool.or_eq_true]
    exact Or.inr (ih ss h)

lemma gsmStar_exists {g : List String → Bool} :
    ∀ {ss : List String}, gsmStar g ss = true →
      ∃ st, List.IsSuffix st ss ∧ g st = true := by
  intro ss
  induction ss with
  | nil => intro h; exact ⟨[], List.suffix_refl [], h⟩
  | cons s st ih =>
    intro h
    simp only [gsmStar, Bool.or_eq_true] at h
    rcases h with h | h
    · exact ⟨s :: st, List.suffix_refl _, h⟩
    · obtain ⟨st', hsuf, hg⟩ := ih h
      exact ⟨st', hsuf.trans (List.suffix_cons s st), hg⟩

lemma gsmStar_globNil : ∀ ss : List String, gsmStar (globSegMatch []) ss = true := by
  intro ss
  induction ss with
  | nil => rfl
  | cons s st ih =>
    simp only [gsmStar, Bool.or_eq_true]
    exact Or.inr ih

lemma globSegMatch_star_all (ss : List String) : globSegMatch ["**"] ss = true := by
  simp only [globSegMatch]
  rw [if_pos (by decide : (("**" : String) == "**") = true)]
  exact gsmStar_globNil ss

lemma globSegMatch_star_intro {pt ss : List String} (h : globSegMatch pt ss = true) :
    globSegMatch ("**" :: pt) ss = true := by
  simp only [globSegMatch]
  rw [if_pos (by decide : (("**" : String) == "**") = true)]
  exact gsmStar_self _ _ h

lemma globSegMatch_star_skip {pt : List String} (d : List String) {ss : List String}
    (h : globSegMatch ("**" :: pt) ss = true) :
    globSegMatch ("**" :: pt) (d ++ ss) = true := by
  simp only [globSegMatch] at h ⊢
  rw [if_pos (by decide : (("**" : String) == "**") = true)] at h ⊢
  exact gsmStar_skip _ d ss h

lemma globSegMatch_literal_run : ∀ (qs : List String), (∀ q ∈ qs, q ≠ "**") →
    ∀ {ps ss : List String}, globSegMatch ps ss = true →
      globSegMatch (qs ++ ps) (qs ++ ss) = true := by
  intro qs
  induction qs with
  | nil => intro _ ps ss h; exact h
  | cons q qt ih =>
    intro hq ps ss h
    have hq1 : q ≠ "**" := hq q (List.mem_cons_self q qt)
    simp only [List.cons_append, globSegMatch]
    rw [if_neg (by simp [hq1])]
    show (q == q && globSegMatch (qt ++ ps) (qt ++ ss)) = true
    rw [Bool.and_eq_true]
    exact ⟨by simp, ih (fun r hr => hq r (List.mem_cons_of_mem _ hr)) h⟩

/-- Every literal (non-globstar) segment of a matching pattern occurs in the
matched path. -/
lemma globSegMatch_literal_mem : ∀ (ps ss : List String), globSegMatch ps ss = true →
    ∀ p ∈ ps, p ≠ "**" → p ∈ ss := by
  intro ps
  induction ps with
  | nil => intro ss h p hp; cases hp
  | cons q pt ih =>
    intro ss h p hp hne
    by_cases hq : (q == "**") = true
    · simp only [globSegMatch, if_pos hq] at h
      obtain ⟨st, hsuf, hg⟩ := gsmStar_exists h
      rcases List.mem_cons.mp hp with rfl | hp'
      · exact absurd (by simpa using hq) hne
      · exact hsuf.subset (ih st hg p hp' hne)
    · simp only [globSegMatch, if_neg hq] at h
      cases ss with
      | nil => simp at h
      | cons s st =>
        rw [Bool.and_eq_true] at h
        obtain ⟨hqs, hrec⟩ := h
        rcases List.mem_cons.mp hp with rfl | hp'
        · rw [show p = s from by simpa using hqs]
          exact List.mem_cons_self s st
        · exact List.mem_cons_of_mem s (ih st hrec p hp' hne)

/-- Segment decomposition of a produced pattern for a rule without a leading
slash. -/
lemma segmentsOf_mkIgnorePattern_noslash (r : String) (h : jsStartsWith r "/" = false) :
    segmentsOf (mkIgnorePattern r) = "**" :: segmentsOf r ++ ["**"] := by
  unfold mkIgnorePattern
  rw [if_neg (by simp [h])]
  unfold segmentsOf
  have hchars : ("**/" ++ r ++ "/**").toList
      = ['*', '*'] ++ '/' :: (r.toList ++ '/' :: ['*', '*']) := by
    simp [toList_append]
  rw [hchars, splitOnChar_append, splitOnChar_append]
  simp [splitOnChar, splitOnCharAux]

lemma toList_lit_dstar : ("**" : String).toList = ['*', '*'] := rfl

lemma toList_lit_slash : ("/" : String).toList = ['/'] := rfl

lemma toList_lit_slash_dstar : ("/**" : String).toList = ['/', '*', '*'] := rfl

lemma toList_lit_dstar_slash : ("**/" : String).toList = ['*', '*', '/'] := rfl

/-! ## Claim C7 — ignore-rule handling in `discoverFiles`

Parsed rules are unioned with the built-ins and comments/blanks are
skipped, as claimed.  But the code tests for a *leading* slash (not a
trailing one), and both branches produce an `**`-prefixed pattern, so no
rule is anchored to the tree root; a trailing-slash rule in fact produces a
doubled slash — an empty segment that matches nothing at all. -/

/-- C7 (counterexample): the trailing-slash rule `dist/` yields the pattern
`**/dist//**`, which fails to match even the root-level path `dist/a.ts`
(and any other path): it is not anchored to the tree root — it is
unsatisfiable. -/
theorem gitignore_trailing_slash_not_anchored :
    parseIgnoreLines "dist/" = ["**/dist//**"] ∧
    ignoreMatches "**/dist//**" ["dist", "a.ts"] = false ∧
    ignoreMatches "**/dist//**" ["sub", "dist", "a.ts"] = false := by
  refine ⟨by decide, by decide, by decide⟩

/-- C7 (amended): rules parsed from the target's ignore file are unioned
with the built-in ignore list; blank and comment lines are skipped (every
produced pattern stems from a trimmed, non-blank, non-`#` line); a
trailing-slash rule produces a pattern with an empty segment that matches no
path whatsoever (it is *not* anchored to the tree root); every
slash- and wildcard-free rule matches its directory at any depth, and a
leading-slash rule is matched at any depth as well. -/
theorem discoverIgnorePatterns_spec :
    (∀ (builtIns : List String) (g : String) (p : String),
      p ∈ discoverIgnorePatterns builtIns (some g) ↔
        p ∈ builtIns ∨ p ∈ parseIgnoreLines g) ∧
    (∀ (content p : String), p ∈ parseIgnoreLines content →
      ∃ cs ∈ splitOnChar '\n' content.toList,
        (jsTrim (String.mk cs)).toList ≠ [] ∧
        jsStartsWith (jsTrim (String.mk cs)) "#" = false ∧
        p = mkIgnorePattern (jsTrim (String.mk cs))) ∧
    (∀ (s : String) (path : List String), ("" : String) ∉ path →
      ignoreMatches (mkIgnorePattern (s ++ "/")) path = false) ∧
    (∀ r : String, r.toList ≠ [] → (∀ ch ∈ r.toList, ch ≠ '/' ∧ ch ≠ '*') →
      ∀ (dirs rest : List String),
        ignoreMatches (mkIgnorePattern r) (dirs ++ r :: rest) = true) ∧
    ignoreMatches (mkIgnorePattern "/dist") ["sub", "dist", "x"] = true := by
  refine ⟨?_, ?_, ?_, ?_, by decide⟩
  · intro builtIns g p
    unfold discoverIgnorePatterns
    exact List.mem_append
  · intro content p hp
    unfold parseIgnoreLines at hp
    obtain ⟨l, hl, rfl⟩ := List.mem_map.mp hp
    obtain ⟨hl2, hq⟩ := List.mem_filter.mp hl
    obtain ⟨l0, hl0, rfl⟩ := List.mem_map.mp hl2
    obtain ⟨cs, hcs, rfl⟩ := List.mem_map.mp hl0
    rw [Bool.and_eq_true, Bool.not_eq_true', Bool.not_eq_true'] at hq
    refine ⟨cs, hcs, ?_, hq.2, rfl⟩
    intro hnil
    rw [hnil] at hq
    simp at hq
  · intro s path hpath
    unfold ignoreMatches
    cases hmatch : globSegMatch (segmentsOf (mkIgnorePattern (s ++ "/"))) path with
    | false => rfl
    | true =>
      exfalso
      have hmem : ("" : String) ∈ segmentsOf (mkIgnorePattern (s ++ "/")) := by
        unfold mkIgnorePattern
        by_cases hsw : jsStartsWith (s ++ "/") "/" = true
        · rw [if_pos hsw]
          refine empty_mem_segments _ ('*' :: '*' :: s.toList) ['*', '*'] ?_
          simp [toList_append, toList_lit_dstar, toList_lit_slash, toList_lit_slash_dstar]
        · rw [if_neg hsw]
          refine empty_mem_segments _ ('*' :: '*' :: '/' :: s.toList) ['*', '*'] ?_
          simp [toList_append, toList_lit_dstar_slash, toList_lit_slash,
            toList_lit_slash_dstar]
      exact hpath (globSegMatch_literal_mem _ _ hmatch "" hmem (by decide))
  · intro r hne hfree dirs rest
    have hnosl : jsStartsWith r "/" = false := by
      by_contra hsw
      rw [Bool.not_eq_false] at hsw
      unfold jsStartsWith at hsw
      have hpre := List.isPrefixOf_iff_prefix.mp hsw
      have hm : '/' ∈ r.toList := hpre.subset (by rw [toList_lit_slash]; simp)
      exact (hfree '/' hm).1 rfl
    have hsegs : segmentsOf r = [r] := by
      unfold segmentsOf
      rw [splitOnChar_no_sep '/' r.toList (fun h => (hfree '/' h).1 rfl)]
      simp [mk_toList]
    have hr_ne : r ≠ "**" := by
      intro hr
      have hmem : '*' ∈ r.toList := by
        rw [hr, toList_lit_dstar]
        simp
      exact (hfree '*' hmem).2 rfl
    unfold ignoreMatches
    rw [segmentsOf_mkIgnorePattern_noslash r hnosl, hsegs]
    apply globSegMatch_star_skip dirs
    apply globSegMatch_star_intro
    refine globSegMatch_literal_run [r] ?_ (globSegMatch_star_all rest)
    intro q hq
    rw [List.mem_singleton.mp hq]
    exact hr_ne

/-- C7 witness: the amended theorem at concrete instances — a built-in
pattern survives the union, the trailing-slash rule `build/` matches
nothing, and the plain rule `dist` matches two levels deep. -/
theorem discoverIgnorePatterns_spec_witness :
    (("**/node_modules/**" : String)
      ∈ discoverIgnorePatterns ["**/node_modules/**"] (some "dist")) ∧
    ignoreMatches (mkIgnorePattern ("build" ++ "/")) ["build", "x.ts"] = false ∧
    ignoreMatches (mkIgnorePattern "dist") (["a", "b"] ++ "dist" :: ["c.ts"]) = true := by
  refine ⟨?_, ?_, ?_⟩
  · exact (discoverIgnorePatterns_spec.1 ["**/node_modules/**"] "dist"
      "**/node_modules/**").mpr (Or.inl (by decide))
  · exact discoverIgnorePatterns_spec.2.2.1 "build" ["build", "x.ts"] (by decide)
  · exact discoverIgnorePatterns_spec.2.2.2.1 "dist" (by decide) (by decide) ["a", "b"]
      ["c.ts"]

/-! ## Claim C5 — two-partition retrieval merge -/

/-- The Scenario D store: the code partition scores
`[0.9, 0.8, 0.7, 0.6, 0.5, 0.4]`, the knowledge partition
`[0.95, 0.3, 0.2]`. -/
def scenarioD : Nat → Partition → List RetrievedContext := fun _ p =>
  match p with
  | .code =>
    [⟨"", "c1.ts", 1, 1, mkRat 9 10⟩, ⟨"", "c2.ts", 1, 1, mkRat 4 5⟩,
     ⟨"", "c3.ts", 1, 1, mkRat 7 10⟩, ⟨"", "c4.ts", 1, 1, mkRat 3 5⟩,
     ⟨"", "c5.ts", 1, 1, mkRat 1 2⟩, ⟨"", "c6.ts", 1, 1, mkRat 2 5⟩]
  | .knowledge =>
    [⟨"", "k1.md", 1, 1, mkRat 19 20⟩, ⟨"", "k2.md", 1, 1, mkRat 3 10⟩,
     ⟨"", "k3.md", 1, 1, mkRat 1 5⟩]

/-- C5: `retrieveContext` in `"both"` mode queries `topK` from the code
partition and `⌈topK/2⌉` from the knowledge partition, concatenates, sorts
descending by score and truncates to `topK`; the result has length `≤ topK`
and is non-increasing in score, and on the Scenario D store with `topK = 6`
the returned scores are exactly `[0.95, 0.9, 0.8, 0.7, 0.6, 0.5]`. -/
theorem retrieveBoth_spec :
    (∀ (query : Nat → Partition → List RetrievedContext) (topK : Nat),
      retrieveBoth query topK
        = ((query topK .code ++ query ((topK + 1) / 2) .knowledge).insertionSort
            scoreDesc).take topK ∧
      (retrieveBoth query topK).length ≤ topK ∧
      (retrieveBoth query topK).Pairwise scoreDesc) ∧
    (retrieveBoth scenarioD 6).map (fun r => r.score)
      = [0.95, 0.9, 0.8, 0.7, 0.6, 0.5] := by
  constructor
  · intro query topK
    refine ⟨rfl, List.length_take_le _ _, ?_⟩
    exact List.Pairwise.sublist (List.take_sublist _ _)
      (List.sorted_insertionSort scoreDesc _)
  · have e95 : (0.95 : ℚ) = mkRat 19 20 := by norm_num [Rat.ofScientific]
    have e9 : (0.9 : ℚ) = mkRat 9 10 := by norm_num [Rat.ofScientific]
    have e8 : (0.8 : ℚ) = mkRat 4 5 := by norm_num [Rat.ofScientific]
    have e7 : (0.7 : ℚ) = mkRat 7 10 := by norm_num [Rat.ofScientific]
    have e6 : (0.6 : ℚ) = mkRat 3 5 := by norm_num [Rat.ofScientific]
    have e5 : (0.5 : ℚ) = mkRat 1 2 := by norm_num [Rat.ofScientific]
    rw [e95, e9, e8, e7, e6, e5]
    decide

/-! ## Claim C6 — file grouping of returned context

The repository's README describes `retriever.ts` as "RAG retrieval with
file-aware context grouping", and an earlier revision of the retriever did
regroup results by file and sort each group by start line.  The current
`retrieveContext` does neither: it returns the merged list in score order,
so two chunks of the same file stay in score order even when the
higher-scoring one starts at a later line. -/

/-- A store whose code partition returns two chunks of `a.ts` (lines 50–60
scoring 0.9, lines 10–20 scoring 0.7) around a `b.ts` chunk scoring 0.8. -/
def qC6 : Nat → Partition → List RetrievedContext := fun _ p =>
  match p with
  | .code =>
    [⟨"", "a.ts", 50, 60, mkRat 9 10⟩, ⟨"", "b.ts", 1, 10, mkRat 4 5⟩,
     ⟨"", "a.ts", 10, 20, mkRat 7 10⟩]
  | .knowledge => []

/-- C6 (code evaluated at the failing input): the context list returned for
this query keeps the two `a.ts` chunks in score order — the chunk starting
at line 50 precedes the one starting at line 10 — so results are not grouped
by file with ascending start lines as claimed (and as the README
documents). -/
theorem retrieveBoth_no_file_grouping :
    (retrieveBoth qC6 3).map (fun r => (r.filePath, r.startLine))
      = [("a.ts", 50), ("b.ts", 1), ("a.ts", 10)] ∧
    ¬ (retrieveBoth qC6 3).Pairwise
        (fun a b => a.filePath = b.filePath → a.startLine ≤ b.startLine) := by
  constructor
  · decide
  · decide

/-- C10 witness: a full run over `envC3` (where `a.ts` is unreadable)
records `a.ts` with mtime 100 and zero chunks, and the incremental re-run
does not select `a.ts` again. -/
theorem train_failed_read_witness :
    lookupEntry (((train envC3 none ["a.ts", "b.ts"]).savedFiles).getD []) "a.ts"
      = some { mtime := 100, chunkCount := 0 } ∧
    "a.ts" ∉ (train envC3
      (some (((train envC3 none ["a.ts", "b.ts"]).savedFiles).getD []))
      ["a.ts", "b.ts"]).filesToProcess := by
  obtain ⟨nf, hnf, h1, h2, -⟩ := train_failed_read envC3 envC3 none ["a.ts", "b.ts"]
    ["a.ts", "b.ts"] "a.ts" (by decide) (by decide) rfl
  rw [hnf, Option.getD_some]
  have hm : envC3.mtime "a.ts" = 100 := by decide
  rw [hm] at h1
  exact ⟨h1, h2⟩

end NodeSage
